import Mathlib

/-!
Verification of the configuration-merging helper in
`src/server/config_loader.py`.

The module keeps a process-wide optional default configuration (a mapping
parsed from a JSON file), and merges it with per-request configurations:

* `load_default_config` / `get_default_config` operate on the global store;
  we embed them by passing the store state explicitly.
* `deep_merge` recursively merges two Python dicts, override winning; we
  embed Python dicts as association lists (`List (String × JValue)`) whose
  key order is the dict's insertion order, and dict assignment
  `result[key] = value` as `setKey` (replace in place, else append), which
  is exactly Python's dict-update behaviour.
* `merge_with_default` combines the store with the explicitly-set subset of
  a request `Config`.  The `Config` class itself lives outside the analysed
  file, so it is modelled from the spec (see `Config` below).
-/

namespace ConfigLoader

/-- JSON-like values as produced by `json.load`: null, booleans, numbers,
strings, arrays and objects (Python dicts), the latter embedded as
association lists in insertion order.  (JSON numbers are modelled as
integers; no claim depends on numeric structure.) -/
inductive JValue : Type where
  | null : JValue
  | bool : Bool → JValue
  | num : Int → JValue
  | str : String → JValue
  | arr : List JValue → JValue
  | obj : List (String × JValue) → JValue

/-- Python dict lookup `d[key]` / `key in d`, as an option. -/
def lookupKey : List (String × JValue) → String → Option JValue
  | [], _ => none
  | (k, v) :: rest, key => if k = key then some v else lookupKey rest key

/-- Python dict assignment `d[key] = value`: if the key is present its slot
is overwritten in place (insertion order preserved), otherwise the new
entry is appended at the end. -/
def setKey (d : List (String × JValue)) (k : String) (v : JValue) :
    List (String × JValue) :=
  if d.any (fun p => p.1 = k) then
    d.map (fun p => if p.1 = k then (k, v) else p)
  else
    d ++ [(k, v)]

/-- `deep_merge(base, override)` from `config_loader.py`:
`result = base.copy()`, then for each `key, value` in `override.items()`,
if `key in result and isinstance(result[key], dict) and isinstance(value,
dict)` then `result[key] = deep_merge(result[key], value)` else
`result[key] = value`.  The accumulating `result` is the first argument of
the recursion. -/
def deep_merge (base : List (String × JValue)) (override : List (String × JValue)) :
    List (String × JValue) :=
  match override with
  | [] => base
  | (key, value) :: rest =>
    match lookupKey base key, value with
    | some (JValue.obj bsub), JValue.obj osub =>
        deep_merge (setKey base key (JValue.obj (deep_merge bsub osub))) rest
    | _, _ =>
        deep_merge (setKey base key value) rest
termination_by sizeOf override

/-- The value stored at one key by one iteration of the `deep_merge` loop:
if both the current value and the override value are dicts they are
recursively merged, otherwise the override value wins. -/
def mergeVal (bv : Option JValue) (v : JValue) : JValue :=
  match bv, v with
  | some (JValue.obj bsub), JValue.obj osub => JValue.obj (deep_merge bsub osub)
  | _, _ => v

/-- A Python dict never holds the same key twice. -/
def NodupKeys (d : List (String × JValue)) : Prop :=
  (d.map Prod.fst).Nodup

instance (d : List (String × JValue)) : Decidable (NodupKeys d) := by
  unfold NodupKeys; infer_instance

/-- One entry of `deep_merge base override` coming from the base side: the
key keeps the base value, merged via `mergeVal` when the override also
binds the key.  (Proof-side normal form for `deep_merge`.) -/
def overrideAt (o : List (String × JValue)) (p : String × JValue) :
    String × JValue :=
  (p.1, match lookupKey o p.1 with
        | some w => mergeVal (some p.2) w
        | none => p.2)

mutual

/-- Well-formedness of an embedded JSON value: every object anywhere inside
it is a genuine Python dict (no duplicate keys).  Values produced by
`json.load` always satisfy this. -/
def wfV : JValue → Bool
  | JValue.null => true
  | JValue.bool _ => true
  | JValue.num _ => true
  | JValue.str _ => true
  | JValue.arr xs => wfL xs
  | JValue.obj fs => decide (NodupKeys fs) && wfD fs

/-- Well-formedness of a list of JSON values. -/
def wfL : List JValue → Bool
  | [] => true
  | x :: xs => wfV x && wfL xs

/-- Well-formedness of the values of a dict. -/
def wfD : List (String × JValue) → Bool
  | [] => true
  | (_, v) :: ps => wfV v && wfD ps

end

/-- Errors `load_default_config` can raise: `open` failing (missing or
unreadable file) or `json.load` failing (malformed JSON). -/
inductive LoadError : Type where
  | ioError : LoadError
  | parseError : LoadError
deriving DecidableEq, Repr

/-- `load_default_config(config_path)` with the global `_default_config`
passed in and out explicitly.  `readFile` models `open(...).read()`
(`none` = I/O error raised) and `parseJson` models `json.load` (`none` =
parse error raised; the spec's external interface says the document parses
into a mapping).  The returned pair is (store after the call, raised
error if any); on each error path the store component is the incoming
store because the Python assignment `_default_config = json.load(f)` has
not executed at the point the exception is raised. -/
def load_default_config (readFile : String → Option String)
    (parseJson : String → Option (List (String × JValue)))
    (config_path : String) (store : Option (List (String × JValue))) :
    Option (List (String × JValue)) × Option LoadError :=
  if config_path = "" then (none, none)
  else
    match readFile config_path with
    | none => (store, some LoadError.ioError)
    | some contents =>
      match parseJson contents with
      | none => (store, some LoadError.parseError)
      | some parsed => (some parsed, none)

/-- `get_default_config()` with the global store passed explicitly: returns
the stored value and the (unchanged) store after the call. -/
def get_default_config (store : Option (List (String × JValue))) :
    Option (List (String × JValue)) × Option (List (String × JValue)) :=
  (store, store)

/-- Modelled from the spec: one field of the external `manga_translator.Config`
class (a structured configuration object with "named, typed,
optionally-defaulted fields").  `name` and `dflt` are the field's
declaration; `value` is `some v` exactly when the caller explicitly set the
field to `v`, and `none` when the field was left at its implicit default —
pydantic's `fields_set` tracking. -/
structure CField : Type where
  name : String
  dflt : JValue
  value : Option JValue

/-- Modelled from the spec: the external `manga_translator.Config` object —
a list of fields, each optionally explicitly set.  The spec's two required
capabilities are `model_dump_exclude_unset` and `model_validate` below.
The spec's type/constraint validation is not specified further, so
validation is modelled as total. -/
structure Config : Type where
  fields : List CField

/-- Modelled from the spec: `request_config.model_dump(exclude_unset=True)` —
"give me only the explicitly-set fields as a mapping", in field-declaration
order. -/
def model_dump_exclude_unset (c : Config) : List (String × JValue) :=
  c.fields.filterMap (fun f => f.value.map (fun v => (f.name, v)))

/-- Modelled from the spec: `Config.model_validate(m)` — "validate this
mapping into a new instance", applying the same field definitions and
defaults as the given shape; fields present in `m` are set, fields absent
fall back to their declared defaults, unknown keys are ignored. -/
def model_validate (shape : List CField) (m : List (String × JValue)) : Config :=
  ⟨shape.map (fun f => { f with value := lookupKey m f.name })⟩

/-- `merge_with_default(request_config)` from `config_loader.py`, with the
global `_default_config` passed in as `store`: if no default is loaded
return the request config unchanged; otherwise deep-merge the default (as
base) with the explicitly-set subset of the request (as override) and
validate the merged mapping back into a `Config` of the same shape. -/
def merge_with_default (store : Option (List (String × JValue)))
    (request_config : Config) : Config :=
  match store with
  | none => request_config
  | some default_config =>
      model_validate request_config.fields
        (deep_merge default_config (model_dump_exclude_unset request_config))

/-- The effective value of a named field of a `Config`: its explicitly-set
value if any, else its declared default. -/
def Config.getField (c : Config) (n : String) : Option JValue :=
  (c.fields.find? (fun f => f.name == n)).map (fun f => f.value.getD f.dflt)

/-- `isinstance(v, dict)` as a Boolean on embedded JSON values. -/
def isObjB : JValue → Bool
  | JValue.obj _ => true
  | _ => false

/-! ### Heap model of `deep_merge` (for the no-mutation claim)

Python dicts are mutable objects: to state that `deep_merge` does not
mutate its arguments we re-run the same code over an explicit heap.  A
dict value is a reference (`href`) to a heap cell; all other values are
immediate.  `isinstance(x, dict)` holds exactly of `href` values. -/

/-- Heap values: like `JValue`, but dicts are references to heap cells. -/
inductive HValue : Type where
  | hnull : HValue
  | hbool : Bool → HValue
  | hnum : Int → HValue
  | hstr : String → HValue
  | harr : List HValue → HValue
  | href : Nat → HValue

/-- A heap: cell `i` holds the entries of one Python dict object. -/
abbrev Heap : Type := List (List (String × HValue))

/-- Dict lookup on heap entries (same as `lookupKey`). -/
def lookupKeyH : List (String × HValue) → String → Option HValue
  | [], _ => none
  | (k, v) :: rest, key => if k = key then some v else lookupKeyH rest key

/-- Dict assignment on heap entries (same as `setKey`). -/
def setKeyH (d : List (String × HValue)) (k : String) (v : HValue) :
    List (String × HValue) :=
  if d.any (fun p => p.1 = k) then
    d.map (fun p => if p.1 = k then (k, v) else p)
  else
    d ++ [(k, v)]

mutual

/-- `deep_merge(base, override)` over the heap: read the two argument
dicts, allocate `result = base.copy()` as a fresh cell (shallow copy:
same entries, shared references), then run the loop over the override's
entries.  `fuel` bounds the recursion depth; on tree-shaped heaps — the
only ones Python's `json.load` can produce — any fuel larger than the
nesting depth succeeds.  Returns the final heap and the result's address,
or `none` for fuel exhaustion / a dangling reference (impossible in a real
Python run). -/
def hDeepMerge (fuel : Nat) (h : Heap) (b o : Nat) : Option (Heap × Nat) :=
  match fuel with
  | 0 => none
  | fuel2 + 1 =>
    match h[b]?, h[o]? with
    | some bd, some od => hMergeItems fuel2 (h ++ [bd]) h.length od
    | _, _ => none
termination_by (fuel, 0)

/-- The loop `for key, value in override.items(): ...` of `deep_merge`,
acting on the result cell `r`.  Each iteration re-reads the live result
cell, then either recursively merges (both sides dict references) or
assigns the override value. -/
def hMergeItems (fuel : Nat) (h : Heap) (r : Nat)
    (items : List (String × HValue)) : Option (Heap × Nat) :=
  match items with
  | [] => some (h, r)
  | (key, value) :: rest =>
    match h[r]? with
    | none => none
    | some rd =>
      match lookupKeyH rd key, value with
      | some (HValue.href bsub), HValue.href osub =>
        match hDeepMerge fuel h bsub osub with
        | none => none
        | some (h2, rsub) =>
          match h2[r]? with
          | none => none
          | some rd2 =>
            hMergeItems fuel (h2.set r (setKeyH rd2 key (HValue.href rsub))) r rest
      | _, _ => hMergeItems fuel (h.set r (setKeyH rd key value)) r rest
termination_by (fuel, items.length + 1)

end

/-! ### Basic lemmas about the dict primitives -/

theorem lookup_append (d e : List (String × JValue)) (key : String) :
    lookupKey (d ++ e) key =
      match lookupKey d key with
      | some v => some v
      | none => lookupKey e key := by
  induction d with
  | nil => simp [lookupKey]
  | cons p rest ih =>
    obtain ⟨k, v⟩ := p
    by_cases h : k = key <;> simp [lookupKey, h, ih]

theorem any_key_eq_isSome (d : List (String × JValue)) (k : String) :
    d.any (fun p => p.1 = k) = (lookupKey d k).isSome := by
  induction d with
  | nil => simp [lookupKey]
  | cons p rest ih =>
    obtain ⟨k0, v0⟩ := p
    by_cases h : k0 = k <;> simp [lookupKey, h, ih]

theorem lookup_map_replace (d : List (String × JValue)) (k : String) (v : JValue)
    (key : String) :
    lookupKey (d.map (fun p => if p.1 = k then (k, v) else p)) key =
      if key = k then (lookupKey d k).map (fun _ => v) else lookupKey d key := by
  induction d with
  | nil => by_cases h : key = k <;> simp [lookupKey, h]
  | cons p rest ih =>
    obtain ⟨k0, v0⟩ := p
    simp only [List.map_cons]
    by_cases h0 : k0 = k
    · subst h0
      rw [if_pos rfl]
      by_cases hk : key = k0
      · subst hk
        simp [lookupKey]
      · have hk0 : ¬k0 = key := fun hc => hk hc.symm
        simp only [lookupKey, if_neg hk0, if_neg hk, ih]
    · rw [if_neg h0]
      by_cases h : k0 = key
      · subst h
        simp only [lookupKey, if_pos rfl, if_neg h0]
        simp
      · simp only [lookupKey, if_neg h, if_neg h0, ih]

theorem lookup_setKey (d : List (String × JValue)) (k : String) (v : JValue)
    (key : String) :
    lookupKey (setKey d k v) key = if key = k then some v else lookupKey d key := by
  unfold setKey
  rw [any_key_eq_isSome]
  rcases h : lookupKey d k with _ | w
  · simp only [h, Option.isSome_none, Bool.false_eq_true, if_false]
    rw [lookup_append]
    by_cases hk : key = k
    · subst hk
      simp [h, lookupKey]
    · rcases hl : lookupKey d key with _ | u
      · simp only [hl, if_neg hk]
        simp [lookupKey, if_neg (fun hc : k = key => hk hc.symm)]
      · simp [hl, if_neg hk]
  · simp only [h, Option.isSome_some, if_true]
    rw [lookup_map_replace]
    by_cases hk : key = k <;> simp [hk, h]

theorem keys_setKey (d : List (String × JValue)) (k : String) (v : JValue) :
    (setKey d k v).map Prod.fst =
      if (lookupKey d k).isSome then d.map Prod.fst else d.map Prod.fst ++ [k] := by
  unfold setKey
  rw [any_key_eq_isSome]
  rcases h : lookupKey d k with _ | w
  · simp
  · simp only [Option.isSome_some, if_true]
    rw [List.map_map]
    congr 1
    funext p
    by_cases hp : p.1 = k <;> simp [hp]

theorem lookup_isSome_iff_mem_keys (d : List (String × JValue)) (k : String) :
    (lookupKey d k).isSome ↔ k ∈ d.map Prod.fst := by
  induction d with
  | nil => simp [lookupKey]
  | cons p rest ih =>
    obtain ⟨k0, v0⟩ := p
    by_cases h : k0 = k
    · subst h
      simp [lookupKey]
    · simp only [lookupKey, if_neg h, List.map_cons, List.mem_cons, ih]
      constructor
      · exact fun hm => Or.inr hm
      · rintro (hk | hm)
        · exact (h hk.symm).elim
        · exact hm

theorem lookup_eq_none_iff_not_mem (d : List (String × JValue)) (k : String) :
    lookupKey d k = none ↔ k ∉ d.map Prod.fst := by
  rw [← lookup_isSome_iff_mem_keys]
  rcases h : lookupKey d k with _ | w <;> simp [h]

/-! ### Unfolding lemmas for `deep_merge` -/

theorem mergeVal_not_obj (bv : Option JValue) (v : JValue)
    (h : ∀ bs os, bv = some (JValue.obj bs) → v = JValue.obj os → False) :
    mergeVal bv v = v := by
  unfold mergeVal
  split
  · rename_i bs os
    exact ((h bs os rfl rfl)).elim
  · rfl

theorem deep_merge_nil (b : List (String × JValue)) : deep_merge b [] = b :=
  deep_merge.eq_1 b

theorem deep_merge_cons (b : List (String × JValue)) (k : String) (v : JValue)
    (rest : List (String × JValue)) :
    deep_merge b ((k, v) :: rest) =
      deep_merge (setKey b k (mergeVal (lookupKey b k) v)) rest := by
  conv_lhs => rw [deep_merge.eq_def]
  show (match lookupKey b k, v with
    | some (JValue.obj bsub), JValue.obj osub =>
        deep_merge (setKey b k (JValue.obj (deep_merge bsub osub))) rest
    | _, _ => deep_merge (setKey b k v) rest) = _
  split
  · rename_i bsub osub heq
    rw [heq]
    rfl
  · rename_i hno
    rw [mergeVal_not_obj _ _ (fun bs os h1 h2 => hno bs os h1 h2)]

theorem mergeVal_none (v : JValue) : mergeVal none v = v :=
  mergeVal_not_obj none v (fun _ _ h _ => Option.noConfusion h)

theorem setKey_absent (d : List (String × JValue)) (k : String) (v : JValue)
    (h : lookupKey d k = none) : setKey d k v = d ++ [(k, v)] := by
  unfold setKey
  rw [any_key_eq_isSome, h]
  simp

/-! ### The per-key contract of `deep_merge` -/

/-- The per-key behaviour of `deep_merge`: a key found in the override maps
to the override value (recursively merged with the base value when both are
objects), a key only in the base keeps the base value. -/
theorem lookup_deep_merge (o : List (String × JValue)) :
    ∀ b : List (String × JValue), NodupKeys o → ∀ k : String,
    lookupKey (deep_merge b o) k =
      match lookupKey o k with
      | some v => some (mergeVal (lookupKey b k) v)
      | none => lookupKey b k := by
  induction o with
  | nil =>
    intro b _ k
    rw [deep_merge_nil]
    simp [lookupKey]
  | cons p rest ih =>
    obtain ⟨k0, v0⟩ := p
    intro b hnd k
    have hnd2 : k0 ∉ rest.map Prod.fst ∧ NodupKeys rest := by
      unfold NodupKeys at hnd
      simpa [List.nodup_cons] using hnd
    rw [deep_merge_cons, ih _ hnd2.2]
    by_cases hk : k = k0
    · subst hk
      have hrest : lookupKey rest k = none :=
        (lookup_eq_none_iff_not_mem _ _).2 hnd2.1
      rw [hrest]
      simp only [lookup_setKey, if_pos rfl, lookupKey, if_pos rfl]
      simp
    · rw [lookup_setKey, if_neg hk]
      simp only [lookupKey, if_neg (fun hc : k0 = k => hk hc.symm)]

/-- `deep_merge` preserves dict well-formedness: the result has no
duplicate keys when the base has none. -/
theorem nodup_deep_merge (o : List (String × JValue)) :
    ∀ b : List (String × JValue), NodupKeys b → NodupKeys (deep_merge b o) := by
  induction o with
  | nil =>
    intro b hb
    rw [deep_merge_nil]
    exact hb
  | cons p rest ih =>
    obtain ⟨k0, v0⟩ := p
    intro b hb
    rw [deep_merge_cons]
    refine ih _ ?_
    unfold NodupKeys at hb ⊢
    rw [keys_setKey]
    rcases h : (lookupKey b k0).isSome
    · simp only [Bool.false_eq_true, if_false]
      rw [List.nodup_append]
      refine ⟨hb, List.nodup_singleton _, ?_⟩
      intro x hx hmem
      simp only [List.mem_singleton] at hmem
      subst hmem
      rw [← lookup_isSome_iff_mem_keys, h] at hx
      exact Bool.noConfusion hx
    · simp only [if_true]
      exact hb

/-- The keys of `deep_merge base override` are exactly the union of the two
key sets. -/
theorem mem_keys_deep_merge (b o : List (String × JValue)) (ho : NodupKeys o)
    (k : String) :
    k ∈ (deep_merge b o).map Prod.fst ↔ k ∈ b.map Prod.fst ∨ k ∈ o.map Prod.fst := by
  rw [← lookup_isSome_iff_mem_keys, ← lookup_isSome_iff_mem_keys,
    ← lookup_isSome_iff_mem_keys, lookup_deep_merge o b ho k]
  rcases ho2 : lookupKey o k with _ | v <;> rcases hb : lookupKey b k with _ | w <;> simp

/-- Keys absent from the base are appended in override order. -/
theorem deep_merge_all_fresh (o : List (String × JValue)) :
    ∀ b : List (String × JValue), NodupKeys o →
    (∀ k ∈ o.map Prod.fst, k ∉ b.map Prod.fst) →
    deep_merge b o = b ++ o := by
  induction o with
  | nil =>
    intro b _ _
    rw [deep_merge_nil, List.append_nil]
  | cons p rest ih =>
    obtain ⟨k0, v0⟩ := p
    intro b hnd hfresh
    have hnd2 : k0 ∉ rest.map Prod.fst ∧ NodupKeys rest := by
      unfold NodupKeys at hnd
      simpa [List.nodup_cons] using hnd
    have hb0 : lookupKey b k0 = none := by
      rw [lookup_eq_none_iff_not_mem]
      exact hfresh k0 (by simp)
    rw [deep_merge_cons, hb0, mergeVal_none, setKey_absent _ _ _ hb0]
    rw [ih _ hnd2.2 ?_]
    · simp
    · intro k hkmem
      simp only [List.map_append, List.mem_append]
      rintro (hkb | hkone)
      · exact hfresh k (by simp [hkmem]) hkb
      · simp only [List.map_cons, List.map_nil, List.mem_singleton] at hkone
        subst hkone
        exact hnd2.1 hkmem

theorem mergeVal_obj_obj (bs os : List (String × JValue)) :
    mergeVal (some (JValue.obj bs)) (JValue.obj os) = JValue.obj (deep_merge bs os) :=
  rfl

/-! ### Claim theorems: `deep_merge` -/

/-- C2: for mappings `base` and `override`, `deep_merge base override` has
exactly the union of the two key sets; a key present in both whose two
values are both mappings maps to their recursive deep-merge; any other key
present in both maps to the override value; a key present on one side only
keeps that side's value. -/
theorem claim_C2_deep_merge_contract (base override : List (String × JValue))
    (ho : NodupKeys override) :
    (∀ k : String, k ∈ (deep_merge base override).map Prod.fst ↔
        k ∈ base.map Prod.fst ∨ k ∈ override.map Prod.fst) ∧
    (∀ (k : String) (bs os : List (String × JValue)),
        lookupKey base k = some (JValue.obj bs) →
        lookupKey override k = some (JValue.obj os) →
        lookupKey (deep_merge base override) k = some (JValue.obj (deep_merge bs os))) ∧
    (∀ (k : String) (bv ov : JValue),
        lookupKey base k = some bv → lookupKey override k = some ov →
        (∀ bs os, bv = JValue.obj bs → ov = JValue.obj os → False) →
        lookupKey (deep_merge base override) k = some ov) ∧
    (∀ (k : String) (ov : JValue),
        lookupKey base k = none → lookupKey override k = some ov →
        lookupKey (deep_merge base override) k = some ov) ∧
    (∀ (k : String) (bv : JValue),
        lookupKey base k = some bv → lookupKey override k = none →
        lookupKey (deep_merge base override) k = some bv) := by
  refine ⟨mem_keys_deep_merge base override ho, ?_, ?_, ?_, ?_⟩
  · intro k bs os hb hov
    rw [lookup_deep_merge override base ho k, hov, hb]
    rfl
  · intro k bv ov hb hov hmm
    rw [lookup_deep_merge override base ho k, hov, hb]
    show some (mergeVal (some bv) ov) = some ov
    rw [mergeVal_not_obj _ _ (fun bs os h1 h2 => hmm bs os (Option.some.inj h1) h2)]
  · intro k ov hb hov
    rw [lookup_deep_merge override base ho k, hov, hb]
    show some (mergeVal none ov) = some ov
    rw [mergeVal_none]
  · intro k bv hb hov
    rw [lookup_deep_merge override base ho k, hov]
    exact hb

theorem claim_C2_witness :
    ("y" ∈ (deep_merge [("x", JValue.num 1)] [("y", JValue.num 2)]).map Prod.fst ↔
      "y" ∈ [("x", JValue.num 1)].map Prod.fst ∨
        "y" ∈ [("y", JValue.num 2)].map Prod.fst) :=
  (claim_C2_deep_merge_contract [("x", JValue.num 1)] [("y", JValue.num 2)]
    (by decide)).1 "y"

/-- C3: `deep_merge` is a total function of its two arguments (it is a Lean
`def`, hence never fails), and a type mismatch at a key — at least one of
the two values not a mapping — is resolved by the override value replacing
the slot wholesale. -/
theorem claim_C3_type_mismatch_wholesale (base override : List (String × JValue))
    (ho : NodupKeys override) (k : String) (bv ov : JValue)
    (hb : lookupKey base k = some bv) (hov : lookupKey override k = some ov)
    (hmm : isObjB bv = false ∨ isObjB ov = false) :
    lookupKey (deep_merge base override) k = some ov := by
  rw [lookup_deep_merge override base ho k, hov, hb]
  show some (mergeVal (some bv) ov) = some ov
  rw [mergeVal_not_obj]
  intro bs os h1 h2
  rcases hmm with h | h
  · rw [Option.some.inj h1] at h
    exact Bool.noConfusion (by rw [← h]; rfl : (true : Bool) = false)
  · rw [h2] at h
    exact Bool.noConfusion (by rw [← h]; rfl : (true : Bool) = false)

theorem claim_C3_witness :
    lookupKey (deep_merge [("x", JValue.obj [("a", JValue.num 1)])]
      [("x", JValue.num 5)]) "x" = some (JValue.num 5) :=
  claim_C3_type_mismatch_wholesale [("x", JValue.obj [("a", JValue.num 1)])]
    [("x", JValue.num 5)] (by decide) "x" (JValue.obj [("a", JValue.num 1)])
    (JValue.num 5) (by simp [lookupKey]) (by simp [lookupKey]) (Or.inr rfl)

/-- C5: the empty mapping is a right identity of `deep_merge`
(`deep_merge a {} = a`) and a left identity (`deep_merge {} b = b`). -/
theorem claim_C5_empty_identities :
    (∀ a : List (String × JValue), deep_merge a [] = a) ∧
    (∀ b : List (String × JValue), NodupKeys b → deep_merge [] b = b) := by
  refine ⟨deep_merge_nil, fun b hb => ?_⟩
  have h := deep_merge_all_fresh b [] hb (by simp)
  simpa using h

theorem claim_C5_witness :
    deep_merge [] [("x", JValue.num 1)] = [("x", JValue.num 1)] :=
  claim_C5_empty_identities.2 [("x", JValue.num 1)] (by decide)

/-! ### Claim theorems: the store and `merge_with_default` short-circuit -/

/-- C6: with no default configuration loaded (store holds `none`, the
absent marker), `merge_with_default` returns the request config unchanged. -/
theorem claim_C6_no_default_short_circuit :
    ∀ request_config : Config, merge_with_default none request_config = request_config :=
  fun _ => rfl

/-- C8: a failing file read propagates as an I/O error and malformed JSON
propagates as a parse error; in both cases the call returns that error (no
retry, no fallback default is substituted into the store). -/
theorem claim_C8_load_errors_propagate (readFile : String → Option String)
    (parseJson : String → Option (List (String × JValue)))
    (config_path : String) (store : Option (List (String × JValue)))
    (hpath : config_path ≠ "") :
    (readFile config_path = none →
      load_default_config readFile parseJson config_path store =
        (store, some LoadError.ioError)) ∧
    (∀ contents, readFile config_path = some contents → parseJson contents = none →
      load_default_config readFile parseJson config_path store =
        (store, some LoadError.parseError)) := by
  constructor
  · intro hread
    simp [load_default_config, if_neg hpath, hread]
  · intro contents hread hparse
    simp [load_default_config, if_neg hpath, hread, hparse]

theorem claim_C8_witness :
    load_default_config (fun _ => none) (fun _ => none) "config.json" none =
      (none, some LoadError.ioError) :=
  (claim_C8_load_errors_propagate (fun _ => none) (fun _ => none) "config.json" none
    (by decide)).1 rfl

/-- C9: loading from an empty/absent source stores the absent marker and a
subsequent `get_default_config` returns it; `get_default_config` always
returns the currently stored value and leaves the store untouched. -/
theorem claim_C9_clear_and_get :
    (∀ (readFile : String → Option String)
        (parseJson : String → Option (List (String × JValue)))
        (store : Option (List (String × JValue))),
      load_default_config readFile parseJson "" store = (none, none) ∧
      get_default_config (load_default_config readFile parseJson "" store).1 =
        (none, none)) ∧
    (∀ store : Option (List (String × JValue)),
      get_default_config store = (store, store)) := by
  refine ⟨fun readFile parseJson store => ?_, fun store => rfl⟩
  constructor
  · unfold load_default_config
    rw [if_pos rfl]
  · unfold load_default_config get_default_config
    rw [if_pos rfl]

/-- C10: if `load_default_config` raises (I/O or parse error) after being
given a non-empty path, the stored default configuration is exactly what it
was before the call. -/
theorem claim_C10_load_atomic_on_error (readFile : String → Option String)
    (parseJson : String → Option (List (String × JValue)))
    (config_path : String) (store : Option (List (String × JValue)))
    (hpath : config_path ≠ "")
    (herr : (load_default_config readFile parseJson config_path store).2 ≠ none) :
    (load_default_config readFile parseJson config_path store).1 = store := by
  rcases hread : readFile config_path with _ | contents
  · simp [load_default_config, if_neg hpath, hread]
  · rcases hparse : parseJson contents with _ | parsed
    · simp [load_default_config, if_neg hpath, hread, hparse]
    · exact absurd (by simp [load_default_config, if_neg hpath, hread, hparse]) herr

theorem claim_C10_witness :
    (load_default_config (fun _ => some "not json") (fun _ => none) "config.json"
      (some [("translator", JValue.str "google")])).1 =
      some [("translator", JValue.str "google")] :=
  claim_C10_load_atomic_on_error (fun _ => some "not json") (fun _ => none)
    "config.json" (some [("translator", JValue.str "google")]) (by decide)
    (by simp [load_default_config])

/-! ### Config-level lemmas -/

theorem mem_keys_dump (fields : List CField) (k : String)
    (h : k ∈ (model_dump_exclude_unset ⟨fields⟩).map Prod.fst) :
    k ∈ fields.map CField.name := by
  unfold model_dump_exclude_unset at h
  induction fields with
  | nil => simp at h
  | cons f rest ih =>
    rcases hv : f.value with _ | v
    · rw [List.filterMap_cons] at h
      simp only [hv, Option.map] at h
      simp only [List.map_cons, List.mem_cons]
      exact Or.inr (ih h)
    · rw [List.filterMap_cons] at h
      simp only [hv, Option.map] at h
      simp only [List.map_cons, List.mem_cons] at h ⊢
      rcases h with h | h
      · exact Or.inl h
      · exact Or.inr (ih h)

theorem nodup_dump (fields : List CField) (hn : (fields.map CField.name).Nodup) :
    NodupKeys (model_dump_exclude_unset ⟨fields⟩) := by
  unfold NodupKeys model_dump_exclude_unset
  induction fields with
  | nil => simp
  | cons f rest ih =>
    simp only [List.map_cons, List.nodup_cons] at hn
    rcases hv : f.value with _ | v
    · rw [List.filterMap_cons]
      simp only [hv, Option.map]
      exact ih hn.2
    · rw [List.filterMap_cons]
      simp only [hv, Option.map, List.map_cons, List.nodup_cons]
      refine ⟨fun hmem => hn.1 ?_, ih hn.2⟩
      exact mem_keys_dump rest f.name hmem

theorem lookup_dump (fields : List CField) (hn : (fields.map CField.name).Nodup)
    (f : CField) (hf : f ∈ fields) :
    lookupKey (model_dump_exclude_unset ⟨fields⟩) f.name = f.value := by
  unfold model_dump_exclude_unset
  induction fields with
  | nil => simp at hf
  | cons g rest ih =>
    simp only [List.map_cons, List.nodup_cons] at hn
    rcases List.mem_cons.1 hf with hfg | hfr
    · subst hfg
      rcases hv : f.value with _ | v
      · rw [List.filterMap_cons]
        simp only [hv, Option.map]
        rw [lookup_eq_none_iff_not_mem]
        exact fun hmem => hn.1 (mem_keys_dump rest f.name hmem)
      · rw [List.filterMap_cons]
        simp only [hv, Option.map]
        simp [lookupKey]
    · have hne : ¬g.name = f.name := by
        intro hc
        exact hn.1 (hc ▸ List.mem_map.2 ⟨f, hfr, rfl⟩)
      rcases hv : g.value with _ | v
      · rw [List.filterMap_cons]
        simp only [hv, Option.map]
        exact ih hn.2 hfr
      · rw [List.filterMap_cons]
        simp only [hv, Option.map, lookupKey, if_neg hne]
        exact ih hn.2 hfr

theorem find?_validate (shape : List CField) (m : List (String × JValue))
    (hn : (shape.map CField.name).Nodup) (f : CField) (hf : f ∈ shape) :
    (model_validate shape m).fields.find? (fun g => g.name == f.name) =
      some ⟨f.name, f.dflt, lookupKey m f.name⟩ := by
  unfold model_validate
  induction shape with
  | nil => simp at hf
  | cons g rest ih =>
    simp only [List.map_cons, List.nodup_cons] at hn
    rcases List.mem_cons.1 hf with hfg | hfr
    · subst hfg
      simp [List.find?]
    · have hne : ¬g.name = f.name := by
        intro hc
        exact hn.1 (hc ▸ List.mem_map.2 ⟨f, hfr, rfl⟩)
      simp only [List.map_cons, List.find?]
      have hbeq : (g.name == f.name) = false := by
        simp [hne]
      simp only [hbeq]
      exact ih hn.2 hfr

theorem getField_validate (shape : List CField) (m : List (String × JValue))
    (hn : (shape.map CField.name).Nodup) (f : CField) (hf : f ∈ shape) :
    (model_validate shape m).getField f.name =
      some ((lookupKey m f.name).getD f.dflt) := by
  unfold Config.getField
  rw [find?_validate shape m hn f hf]
  rfl

/-! ### Claim theorems: `merge_with_default` field contract (C1) -/

/-- C1 as amended: with a default configuration `d` loaded, every field of
the request appears in the merged config with its explicitly-set value —
except that when both the explicitly-set value and the default's value at
that field are mappings, the merged value is their deep-merge — and every
field not explicitly set comes from the default configuration if present
there, else from the field's own declared default. -/
theorem claim_C1_merge_field_contract (d : List (String × JValue)) (c : Config)
    (hn : (c.fields.map CField.name).Nodup) (f : CField) (hf : f ∈ c.fields) :
    (merge_with_default (some d) c).getField f.name =
      some (match f.value, lookupKey d f.name with
        | some (JValue.obj ov), some (JValue.obj dv) => JValue.obj (deep_merge dv ov)
        | some v, _ => v
        | none, some dv => dv
        | none, none => f.dflt) := by
  show (model_validate c.fields (deep_merge d (model_dump_exclude_unset c))).getField
      f.name = _
  rw [getField_validate c.fields _ hn f hf]
  rw [lookup_deep_merge _ _ (nodup_dump c.fields hn) f.name]
  rw [show model_dump_exclude_unset ⟨c.fields⟩ = model_dump_exclude_unset c from rfl]
  rw [lookup_dump c.fields hn f hf]
  rcases hv : f.value with _ | v
  · rcases hd : lookupKey d f.name with _ | dv
    · simp
    · simp
  · rcases hd : lookupKey d f.name with _ | dv
    · cases v <;> simp [mergeVal]
    · cases v <;> cases dv <;> simp [mergeVal]

theorem claim_C1_witness :
    (merge_with_default (some [("translator", JValue.str "google"), ("size", JValue.str "M")])
        ⟨[⟨"size", JValue.str "S", some (JValue.str "L")⟩]⟩).getField "size" =
      some (JValue.str "L") :=
  claim_C1_merge_field_contract
    [("translator", JValue.str "google"), ("size", JValue.str "M")]
    ⟨[⟨"size", JValue.str "S", some (JValue.str "L")⟩]⟩ (by simp)
    ⟨"size", JValue.str "S", some (JValue.str "L")⟩ (by simp)

/-- C1 as frozen is false on the code: with default
`{"a": {"b": 1, "c": 2}}` and a request whose only explicitly-set field is
`a = {"b": 9}`, the merged config's `a` is the deep-merge
`{"b": 9, "c": 2}`, not the explicitly-set value `{"b": 9}` itself. -/
theorem claim_C1_counterexample :
    model_dump_exclude_unset ⟨[⟨"a", JValue.null, some (JValue.obj [("b", JValue.num 9)])⟩]⟩ =
      [("a", JValue.obj [("b", JValue.num 9)])] ∧
    (merge_with_default (some [("a", JValue.obj [("b", JValue.num 1), ("c", JValue.num 2)])])
        ⟨[⟨"a", JValue.null, some (JValue.obj [("b", JValue.num 9)])⟩]⟩).getField "a" =
      some (JValue.obj [("b", JValue.num 9), ("c", JValue.num 2)]) ∧
    JValue.obj [("b", JValue.num 9), ("c", JValue.num 2)] ≠
      JValue.obj [("b", JValue.num 9)] := by
  refine ⟨rfl, ?_, by simp⟩
  show (model_validate _ (deep_merge [("a", JValue.obj [("b", JValue.num 1), ("c", JValue.num 2)])]
      [("a", JValue.obj [("b", JValue.num 9)])])).getField "a" = _
  simp [deep_merge_cons, deep_merge_nil, mergeVal, setKey, lookupKey,
    model_validate, Config.getField, List.find?]

/-! ### A normal form for `deep_merge` -/

theorem lookup_mem (d : List (String × JValue)) (k : String) (w : JValue)
    (h : lookupKey d k = some w) : (k, w) ∈ d := by
  induction d with
  | nil => simp [lookupKey] at h
  | cons p rest ih =>
    obtain ⟨k0, v0⟩ := p
    by_cases hk : k0 = k
    · subst hk
      simp only [lookupKey, if_pos rfl] at h
      rw [← Option.some.inj h]
      exact List.mem_cons_self _ _
    · simp only [lookupKey, if_neg hk] at h
      exact List.mem_cons_of_mem _ (ih h)

theorem lookup_self_of_nodup (b : List (String × JValue)) (hb : NodupKeys b)
    (p : String × JValue) (hp : p ∈ b) : lookupKey b p.1 = some p.2 := by
  induction b with
  | nil => simp at hp
  | cons q rest ih =>
    obtain ⟨k0, v0⟩ := q
    unfold NodupKeys at hb
    simp only [List.map_cons, List.nodup_cons] at hb
    rcases List.mem_cons.1 hp with hpq | hpr
    · subst hpq
      simp [lookupKey]
    · have hne : ¬k0 = p.1 := fun hc => hb.1 (hc ▸ List.mem_map_of_mem Prod.fst hpr)
      simp only [lookupKey, if_neg hne]
      exact ih hb.2 hpr

theorem setKey_present (b : List (String × JValue)) (k : String) (w : JValue)
    (h : (lookupKey b k).isSome = true) :
    setKey b k w = b.map (fun p => if p.1 = k then (k, w) else p) := by
  unfold setKey
  rw [any_key_eq_isSome, h]
  simp

theorem overrideAt_keep (o : List (String × JValue)) (p : String × JValue)
    (h : lookupKey o p.1 = none) : overrideAt o p = p := by
  unfold overrideAt
  rw [h]

theorem overrideAt_cons_ne (k : String) (v : JValue) (o : List (String × JValue))
    (p : String × JValue) (h : ¬k = p.1) :
    overrideAt ((k, v) :: o) p = overrideAt o p := by
  unfold overrideAt
  simp only [lookupKey, if_neg h]

/-- Normal form of `deep_merge`: the base entries in base order, each
merged with the override value at its key, followed by the override
entries whose keys are fresh, in override order. -/
theorem deep_merge_map_filter (o : List (String × JValue)) :
    ∀ b : List (String × JValue), NodupKeys b → NodupKeys o →
    deep_merge b o =
      b.map (overrideAt o) ++ o.filter (fun p => (lookupKey b p.1).isNone) := by
  induction o with
  | nil =>
    intro b hb _
    rw [deep_merge_nil]
    have h1 : ∀ p ∈ b, overrideAt [] p = id p := fun p _ => rfl
    rw [List.map_congr_left h1, List.map_id, List.filter_nil, List.append_nil]
  | cons hd rest ih =>
    obtain ⟨k, v⟩ := hd
    intro b hb hno
    have hno2 : k ∉ rest.map Prod.fst ∧ NodupKeys rest := by
      unfold NodupKeys at hno
      simpa [List.nodup_cons] using hno
    have hrestk : lookupKey rest k = none := (lookup_eq_none_iff_not_mem _ _).2 hno2.1
    rw [deep_merge_cons]
    rcases hbk : lookupKey b k with _ | bv
    · -- the override key is fresh in the base
      have hknotb : k ∉ b.map Prod.fst := (lookup_eq_none_iff_not_mem b k).1 hbk
      rw [mergeVal_none, setKey_absent b k v hbk]
      have hnd2 : NodupKeys (b ++ [(k, v)]) := by
        unfold NodupKeys at hb ⊢
        rw [List.map_append, List.nodup_append]
        refine ⟨hb, by simp, ?_⟩
        intro x hx hmem
        simp only [List.map_cons, List.map_nil, List.mem_singleton] at hmem
        subst hmem
        exact hknotb hx
      rw [ih _ hnd2 hno2.2, List.map_append]
      have hhd : [(k, v)].map (overrideAt rest) = [(k, v)] := by
        simp only [List.map_cons, List.map_nil]
        rw [overrideAt_keep rest (k, v) hrestk]
      rw [hhd]
      have hmapeq : b.map (overrideAt rest) = b.map (overrideAt ((k, v) :: rest)) := by
        refine List.map_congr_left ?_
        intro p hp
        have hne : ¬k = p.1 := fun hc => hknotb (hc ▸ List.mem_map_of_mem Prod.fst hp)
        rw [overrideAt_cons_ne k v rest p hne]
      rw [hmapeq]
      have hfil : rest.filter (fun p => (lookupKey (b ++ [(k, v)]) p.1).isNone) =
          rest.filter (fun p => (lookupKey b p.1).isNone) := by
        refine List.filter_congr ?_
        intro p hp
        have hne : ¬k = p.1 := fun hc => hno2.1 (hc ▸ List.mem_map_of_mem Prod.fst hp)
        rw [lookup_append]
        rcases hbp : lookupKey b p.1 with _ | u
        · simp only [lookupKey, if_neg hne]
        · rfl
      rw [hfil]
      have hfc : ((k, v) :: rest).filter (fun p => (lookupKey b p.1).isNone) =
          (k, v) :: rest.filter (fun p => (lookupKey b p.1).isNone) := by
        rw [List.filter_cons]
        simp [hbk]
      rw [hfc, List.append_assoc, List.singleton_append]
    · -- the override key is already bound in the base
      rw [setKey_present b k (mergeVal (some bv) v) (by rw [hbk]; rfl)]
      have hndm : NodupKeys
          (b.map (fun p => if p.1 = k then (k, mergeVal (some bv) v) else p)) := by
        unfold NodupKeys at hb ⊢
        rw [List.map_map]
        have hcomp : (Prod.fst ∘ fun p : String × JValue =>
            if p.1 = k then (k, mergeVal (some bv) v) else p) = Prod.fst := by
          funext p
          by_cases hpk : p.1 = k
          · simp [hpk]
          · simp [hpk]
        rw [hcomp]
        exact hb
      rw [ih _ hndm hno2.2, List.map_map]
      have hmapeq : b.map (overrideAt rest ∘ fun p =>
          if p.1 = k then (k, mergeVal (some bv) v) else p) =
          b.map (overrideAt ((k, v) :: rest)) := by
        refine List.map_congr_left ?_
        intro p hp
        by_cases hpk : p.1 = k
        · have hp2 : lookupKey b p.1 = some p.2 := lookup_self_of_nodup b hb p hp
          rw [hpk] at hp2
          have hbv : bv = p.2 := Option.some.inj (hbk.symm.trans hp2)
          show overrideAt rest (if p.1 = k then (k, mergeVal (some bv) v) else p) =
            overrideAt ((k, v) :: rest) p
          rw [if_pos hpk, overrideAt_keep rest (k, mergeVal (some bv) v) hrestk]
          unfold overrideAt
          simp only [lookupKey, if_pos hpk.symm]
          rw [← hpk, ← hbv]
        · show overrideAt rest (if p.1 = k then (k, mergeVal (some bv) v) else p) =
            overrideAt ((k, v) :: rest) p
          rw [if_neg hpk, overrideAt_cons_ne k v rest p (fun hc => hpk hc.symm)]
      rw [hmapeq]
      have hfil : rest.filter (fun p =>
          (lookupKey (b.map (fun p => if p.1 = k then (k, mergeVal (some bv) v) else p))
            p.1).isNone) =
          rest.filter (fun p => (lookupKey b p.1).isNone) := by
        refine List.filter_congr ?_
        intro p hp
        have hne : ¬p.1 = k := fun hc => hno2.1 (hc ▸ List.mem_map_of_mem Prod.fst hp)
        rw [lookup_map_replace b k (mergeVal (some bv) v) p.1, if_neg hne]
      rw [hfil]
      have hfc : ((k, v) :: rest).filter (fun p => (lookupKey b p.1).isNone) =
          rest.filter (fun p => (lookupKey b p.1).isNone) := by
        rw [List.filter_cons]
        simp [hbk]
      rw [hfc]

/-! ### Well-formedness helpers and the absorption law -/

theorem wfD_mem (d : List (String × JValue)) (hd : wfD d = true) (k : String)
    (w : JValue) (hmem : (k, w) ∈ d) : wfV w = true := by
  induction d with
  | nil => simp at hmem
  | cons p rest ih =>
    obtain ⟨k0, v0⟩ := p
    simp only [wfD, Bool.and_eq_true] at hd
    rcases List.mem_cons.1 hmem with h | h
    · cases h
      exact hd.1
    · exact ih hd.2 h

theorem wfD_lookup (d : List (String × JValue)) (hd : wfD d = true) (k : String)
    (w : JValue) (h : lookupKey d k = some w) : wfV w = true :=
  wfD_mem d hd k w (lookup_mem d k w h)

theorem wfV_obj (fs : List (String × JValue)) (h : wfV (JValue.obj fs) = true) :
    NodupKeys fs ∧ wfD fs = true := by
  simp only [wfV, Bool.and_eq_true, decide_eq_true_eq] at h
  exact h

theorem lookup_map_overrideAt (o : List (String × JValue)) (a : List (String × JValue)) :
    NodupKeys a → ∀ p ∈ a, lookupKey (a.map (overrideAt o)) p.1 =
      some ((overrideAt o p).2) := by
  induction a with
  | nil =>
    intro _ p hp
    simp at hp
  | cons q rest ih =>
    intro ha p hp
    unfold NodupKeys at ha
    simp only [List.map_cons, List.nodup_cons] at ha
    rcases List.mem_cons.1 hp with hpq | hpr
    · subst hpq
      simp only [List.map_cons]
      rw [show overrideAt o p = (p.1, (overrideAt o p).2) from rfl]
      simp [lookupKey]
    · have hne : ¬q.1 = p.1 := fun hc => ha.1 (hc ▸ List.mem_map_of_mem Prod.fst hpr)
      simp only [List.map_cons]
      rw [show overrideAt o q = (q.1, (overrideAt o q).2) from rfl]
      simp only [lookupKey, if_neg hne]
      exact ih ha.2 p hpr

/-- Merging the same base twice is the same as merging it once: size-bounded
auxiliary form, by strong induction on the base's size. -/
theorem deep_merge_absorb_aux (n : Nat) : ∀ a b : List (String × JValue),
    sizeOf a ≤ n → NodupKeys a → wfD a = true → NodupKeys b → wfD b = true →
    deep_merge a (deep_merge a b) = deep_merge a b := by
  induction n with
  | zero =>
    intro a b hsz _ _ _ _
    exfalso
    have h0 : 0 < sizeOf a := by cases a <;> simp_arith
    omega
  | succ n ih =>
    intro a b hsz ha1 ha2 hb1 hb2
    have hm1 : NodupKeys (deep_merge a b) := nodup_deep_merge b a ha1
    have hmEq : deep_merge a b =
        a.map (overrideAt b) ++ b.filter (fun p => (lookupKey a p.1).isNone) :=
      deep_merge_map_filter b a ha1 hb1
    rw [deep_merge_map_filter (deep_merge a b) a ha1 hm1]
    have hfilter : (deep_merge a b).filter (fun p => (lookupKey a p.1).isNone) =
        b.filter (fun p => (lookupKey a p.1).isNone) := by
      rw [hmEq, List.filter_append]
      have h1 : (a.map (overrideAt b)).filter (fun p => (lookupKey a p.1).isNone) = [] := by
        rw [List.filter_eq_nil_iff]
        intro q hq
        rcases List.mem_map.1 hq with ⟨p, hp, hqe⟩
        have hq1 : q.1 = p.1 := by
          rw [← hqe]
          rfl
        have hlp := lookup_self_of_nodup a ha1 p hp
        simp [hq1, hlp]
      have h2 : ((b.filter (fun p => (lookupKey a p.1).isNone)).filter
          (fun p => (lookupKey a p.1).isNone)) =
          b.filter (fun p => (lookupKey a p.1).isNone) := by
        rw [List.filter_filter]
        refine List.filter_congr ?_
        intro p _
        rw [Bool.and_self]
      rw [h1, h2, List.nil_append]
    have hmap : a.map (overrideAt (deep_merge a b)) = a.map (overrideAt b) := by
      refine List.map_congr_left ?_
      intro p hp
      obtain ⟨p1, p2⟩ := p
      have hlm : lookupKey (deep_merge a b) p1 = some ((overrideAt b (p1, p2)).2) := by
        rw [hmEq, lookup_append, lookup_map_overrideAt b a ha1 (p1, p2) hp]
      have hwfp2 : wfV p2 = true := wfD_mem a ha2 p1 p2 hp
      have hszp : sizeOf (p1, p2) < sizeOf a := List.sizeOf_lt_of_mem hp
      have key : mergeVal (some p2) ((overrideAt b (p1, p2)).2) =
          (overrideAt b (p1, p2)).2 := by
        rcases hbp : lookupKey b p1 with _ | u
        · have hov : (overrideAt b (p1, p2)).2 = p2 := by
            unfold overrideAt
            rw [hbp]
          rw [hov]
          rcases hp2 : p2 with _ | _ | _ | _ | xs | bs
          · rfl
          · rfl
          · rfl
          · rfl
          · rfl
          · rw [mergeVal_obj_obj]
            rw [hp2] at hwfp2
            obtain ⟨hnbs, hwbs⟩ := wfV_obj bs hwfp2
            have hszbs : sizeOf bs ≤ n := by
              have h2 := hszp
              rw [hp2] at h2
              simp only [Prod.mk.sizeOf_spec, JValue.obj.sizeOf_spec] at h2
              omega
            have h1 := ih bs [] hszbs hnbs hwbs (by simp [NodupKeys]) rfl
            rw [deep_merge_nil] at h1
            rw [h1]
        · have hov : (overrideAt b (p1, p2)).2 = mergeVal (some p2) u := by
            unfold overrideAt
            rw [hbp]
          rw [hov]
          have hwfu : wfV u = true := wfD_lookup b hb2 p1 u hbp
          rcases hp2 : p2 with _ | _ | _ | _ | xs | bs <;>
            rcases hu : u with _ | _ | _ | _ | ys | os <;> try rfl
          rw [mergeVal_obj_obj, mergeVal_obj_obj]
          rw [hp2] at hwfp2
          rw [hu] at hwfu
          obtain ⟨hnbs, hwbs⟩ := wfV_obj bs hwfp2
          obtain ⟨hnos, hwos⟩ := wfV_obj os hwfu
          have hszbs : sizeOf bs ≤ n := by
            have h2 := hszp
            rw [hp2] at h2
            simp only [Prod.mk.sizeOf_spec, JValue.obj.sizeOf_spec] at h2
            omega
          exact congrArg JValue.obj (ih bs os hszbs hnbs hwbs hnos hwos)
      have hstep : overrideAt (deep_merge a b) (p1, p2) =
          (p1, mergeVal (some p2) ((overrideAt b (p1, p2)).2)) := by
        unfold overrideAt
        rw [hlm]
        rfl
      rw [hstep, key]
      rfl
    rw [hfilter, hmap]
    exact hmEq.symm

/-- Merging the same base twice is the same as merging it once. -/
theorem deep_merge_absorb (a b : List (String × JValue)) (ha1 : NodupKeys a)
    (ha2 : wfD a = true) (hb1 : NodupKeys b) (hb2 : wfD b = true) :
    deep_merge a (deep_merge a b) = deep_merge a b :=
  deep_merge_absorb_aux (sizeOf a) a b le_rfl ha1 ha2 hb1 hb2

theorem mergeVal_self (w : JValue) (hw : wfV w = true) : mergeVal (some w) w = w := by
  rcases hww : w with _ | _ | _ | _ | xs | bs
  · rfl
  · rfl
  · rfl
  · rfl
  · rfl
  · rw [mergeVal_obj_obj]
    rw [hww] at hw
    obtain ⟨hn, hb⟩ := wfV_obj bs hw
    have h1 := deep_merge_absorb bs [] hn hb (by simp [NodupKeys]) rfl
    rw [deep_merge_nil] at h1
    rw [h1]

theorem mergeVal_absorb (w u : JValue) (hw : wfV w = true) (hu : wfV u = true) :
    mergeVal (some w) (mergeVal (some w) u) = mergeVal (some w) u := by
  rcases hww : w with _ | _ | _ | _ | xs | bs <;>
    rcases huu : u with _ | _ | _ | _ | ys | os <;> try rfl
  rw [mergeVal_obj_obj, mergeVal_obj_obj]
  rw [hww] at hw
  rw [huu] at hu
  obtain ⟨hnbs, hwbs⟩ := wfV_obj bs hw
  obtain ⟨hnos, hwos⟩ := wfV_obj os hu
  exact congrArg JValue.obj (deep_merge_absorb bs os hnbs hwbs hnos hwos)

/-! ### Idempotence of `merge_with_default` (C7) -/

theorem names_validate (shape : List CField) (m : List (String × JValue)) :
    (model_validate shape m).fields.map CField.name = shape.map CField.name := by
  unfold model_validate
  rw [List.map_map]
  rfl

theorem validate_fixed (shape : List CField) (m m' : List (String × JValue))
    (h : ∀ f ∈ shape, lookupKey m' f.name = lookupKey m f.name) :
    model_validate ((model_validate shape m).fields) m' = model_validate shape m := by
  unfold model_validate
  simp only [List.map_map]
  refine congrArg Config.mk (List.map_congr_left ?_)
  intro f hf
  show (⟨f.name, f.dflt, lookupKey m' f.name⟩ : CField) =
    ⟨f.name, f.dflt, lookupKey m f.name⟩
  rw [h f hf]

/-- C7: with a fixed default configuration loaded, `merge_with_default` is
idempotent — re-merging a config it has already produced returns an equal
config.  Well-formedness asks only that the default config and the
request's explicitly-set values are genuine JSON data (no dict anywhere
holds a duplicate key). -/
theorem claim_C7_merge_idempotent (d : List (String × JValue)) (c : Config)
    (hn : (c.fields.map CField.name).Nodup)
    (hd2 : wfD d = true)
    (hc : ∀ f ∈ c.fields, ∀ v, f.value = some v → wfV v = true) :
    merge_with_default (some d) (merge_with_default (some d) c) =
      merge_with_default (some d) c := by
  have hdumpc : NodupKeys (model_dump_exclude_unset c) := nodup_dump c.fields hn
  have hn1 : ((model_validate c.fields
      (deep_merge d (model_dump_exclude_unset c))).fields.map CField.name).Nodup := by
    rw [names_validate]
    exact hn
  show model_validate ((model_validate c.fields
      (deep_merge d (model_dump_exclude_unset c))).fields)
      (deep_merge d (model_dump_exclude_unset (model_validate c.fields
        (deep_merge d (model_dump_exclude_unset c))))) =
    model_validate c.fields (deep_merge d (model_dump_exclude_unset c))
  refine validate_fixed c.fields (deep_merge d (model_dump_exclude_unset c)) _ ?_
  intro f hf
  have hdump1 : lookupKey (model_dump_exclude_unset (model_validate c.fields
      (deep_merge d (model_dump_exclude_unset c)))) f.name =
      lookupKey (deep_merge d (model_dump_exclude_unset c)) f.name := by
    have hmem : (⟨f.name, f.dflt,
        lookupKey (deep_merge d (model_dump_exclude_unset c)) f.name⟩ : CField) ∈
        (model_validate c.fields (deep_merge d (model_dump_exclude_unset c))).fields := by
      unfold model_validate
      exact List.mem_map_of_mem _ hf
    exact lookup_dump (model_validate c.fields
      (deep_merge d (model_dump_exclude_unset c))).fields hn1 _ hmem
  rw [lookup_deep_merge (model_dump_exclude_unset (model_validate c.fields
    (deep_merge d (model_dump_exclude_unset c)))) d
    (nodup_dump (model_validate c.fields
      (deep_merge d (model_dump_exclude_unset c))).fields hn1) f.name]
  rw [hdump1]
  have hchar : lookupKey (deep_merge d (model_dump_exclude_unset c)) f.name =
      match lookupKey (model_dump_exclude_unset c) f.name with
      | some v => some (mergeVal (lookupKey d f.name) v)
      | none => lookupKey d f.name :=
    lookup_deep_merge (model_dump_exclude_unset c) d hdumpc f.name
  rw [lookup_dump c.fields hn f hf] at hchar
  rcases hfv : f.value with _ | v
  · have hchar2 : lookupKey (deep_merge d (model_dump_exclude_unset c)) f.name =
        lookupKey d f.name := by
      rw [hchar, hfv]
    rcases hdd : lookupKey d f.name with _ | w
    · rw [hchar2, hdd]
    · rw [hchar2, hdd]
      show some (mergeVal (some w) w) = some w
      rw [mergeVal_self w (wfD_lookup d hd2 f.name w hdd)]
  · have hchar2 : lookupKey (deep_merge d (model_dump_exclude_unset c)) f.name =
        some (mergeVal (lookupKey d f.name) v) := by
      rw [hchar, hfv]
    rw [hchar2]
    show some (mergeVal (lookupKey d f.name) (mergeVal (lookupKey d f.name) v)) =
      some (mergeVal (lookupKey d f.name) v)
    have hv : wfV v = true := hc f hf v hfv
    rcases hdd : lookupKey d f.name with _ | w
    · simp only [mergeVal_none]
    · rw [mergeVal_absorb w v (wfD_lookup d hd2 f.name w hdd) hv]

theorem claim_C7_witness :
    merge_with_default (some [("translator", JValue.str "google"),
        ("size", JValue.str "M")])
      (merge_with_default (some [("translator", JValue.str "google"),
          ("size", JValue.str "M")])
        ⟨[⟨"size", JValue.str "S", some (JValue.str "L")⟩]⟩) =
    merge_with_default (some [("translator", JValue.str "google"),
        ("size", JValue.str "M")])
      ⟨[⟨"size", JValue.str "S", some (JValue.str "L")⟩]⟩ :=
  claim_C7_merge_idempotent [("translator", JValue.str "google"),
      ("size", JValue.str "M")]
    ⟨[⟨"size", JValue.str "S", some (JValue.str "L")⟩]⟩ (by simp) (by decide)
    (by decide)

/-! ### Frame property of the heap-level `deep_merge` (C4) -/

theorem hMergeItems_frame_of (fuel : Nat)
    (hdm : ∀ (h : Heap) (b o : Nat) (h' : Heap) (r : Nat),
      hDeepMerge fuel h b o = some (h', r) →
      h.length ≤ h'.length ∧ ∀ a, a < h.length → h'[a]? = h[a]?) :
    ∀ (items : List (String × HValue)) (h : Heap) (r : Nat) (h' : Heap) (r' : Nat),
      hMergeItems fuel h r items = some (h', r') →
      r' = r ∧ h.length ≤ h'.length ∧
        ∀ a, a < h.length → a ≠ r → h'[a]? = h[a]? := by
  intro items
  induction items with
  | nil =>
    intro h r h' r' hrun
    unfold hMergeItems at hrun
    have hinj := Option.some.inj hrun
    injection hinj with hh hr
    subst hh
    subst hr
    exact ⟨rfl, le_rfl, fun a _ _ => rfl⟩
  | cons hdp rest ihr =>
    obtain ⟨key, value⟩ := hdp
    intro h r h' r' hrun
    unfold hMergeItems at hrun
    split at hrun
    · exact Option.noConfusion hrun
    · rename_i rd hrd
      split at hrun
      · rename_i bsub osub hlk
        split at hrun
        · exact Option.noConfusion hrun
        · rename_i h2 rsub hdm2
          split at hrun
          · exact Option.noConfusion hrun
          · rename_i rd2 hrd2
            obtain ⟨hle2, hfr2⟩ := hdm h bsub osub h2 rsub hdm2
            obtain ⟨hreq, hle3, hfr3⟩ :=
              ihr (h2.set r (setKeyH rd2 key (HValue.href rsub))) r h' r' hrun
            refine ⟨hreq, ?_, ?_⟩
            · rw [List.length_set] at hle3
              omega
            · intro a ha hne
              rw [hfr3 a (by rw [List.length_set]; omega) hne]
              rw [List.getElem?_set_ne (fun hc => hne hc.symm)]
              exact hfr2 a ha
      · rename_i value1 xopt value2 hno
        obtain ⟨hreq, hle3, hfr3⟩ :=
          ihr (h.set r (setKeyH rd key value1)) r h' r' hrun
        refine ⟨hreq, ?_, ?_⟩
        · rw [List.length_set] at hle3
          omega
        · intro a ha hne
          rw [hfr3 a (by rw [List.length_set]; omega) hne]
          rw [List.getElem?_set_ne (fun hc => hne hc.symm)]

theorem hDeepMerge_frame (fuel : Nat) :
    ∀ (h : Heap) (b o : Nat) (h' : Heap) (r : Nat),
      hDeepMerge fuel h b o = some (h', r) →
      h.length ≤ h'.length ∧ ∀ a, a < h.length → h'[a]? = h[a]? := by
  induction fuel with
  | zero =>
    intro h b o h' r hrun
    simp [hDeepMerge] at hrun
  | succ fuel2 ih =>
    intro h b o h' r hrun
    unfold hDeepMerge at hrun
    split at hrun
    · rename_i bd od hb ho
      obtain ⟨hreq, hle, hfr⟩ :=
        hMergeItems_frame_of fuel2 ih od (h ++ [bd]) h.length h' r hrun
      constructor
      · rw [List.length_append] at hle
        simp only [List.length_cons, List.length_nil] at hle
        omega
      · intro a ha
        have h1 := hfr a (by rw [List.length_append]; simp; omega) (by omega)
        rw [h1, List.getElem?_append, if_pos ha]
    · exact Option.noConfusion hrun

/-- C4: the heap-level run of `deep_merge` mutates neither input: every
dict object that existed before the call — in particular the base and the
override themselves and every dict reachable from them — holds exactly the
same entries after the call.  (The result lives in freshly allocated
cells.) -/
theorem claim_C4_deep_merge_no_mutation (fuel : Nat) (h : Heap) (b o : Nat)
    (h' : Heap) (r : Nat) (hrun : hDeepMerge fuel h b o = some (h', r)) :
    (∀ a, a < h.length → h'[a]? = h[a]?) ∧ h'[b]? = h[b]? ∧ h'[o]? = h[o]? := by
  have hfr := hDeepMerge_frame fuel h b o h' r hrun
  have hbound : b < h.length ∧ o < h.length := by
    rcases fuel with _ | fuel2
    · simp [hDeepMerge] at hrun
    · unfold hDeepMerge at hrun
      constructor
      · by_contra hc
        rw [List.getElem?_eq_none (Nat.le_of_not_lt hc)] at hrun
        rcases hoo : h[o]? with _ | od <;> rw [hoo] at hrun <;>
          exact Option.noConfusion hrun
      · by_contra hc
        rw [List.getElem?_eq_none (Nat.le_of_not_lt hc)] at hrun
        rcases hbb : h[b]? with _ | bd <;> rw [hbb] at hrun <;>
          exact Option.noConfusion hrun
  exact ⟨hfr.2, hfr.2 b hbound.1, hfr.2 o hbound.2⟩

theorem claim_C4_witness :
    ([[("x", HValue.hnum 1)], [("y", HValue.hnum 2)],
        [("x", HValue.hnum 1), ("y", HValue.hnum 2)]] : Heap)[0]? =
      ([[("x", HValue.hnum 1)], [("y", HValue.hnum 2)]] : Heap)[0]? ∧
    ([[("x", HValue.hnum 1)], [("y", HValue.hnum 2)],
        [("x", HValue.hnum 1), ("y", HValue.hnum 2)]] : Heap)[1]? =
      ([[("x", HValue.hnum 1)], [("y", HValue.hnum 2)]] : Heap)[1]? :=
  (claim_C4_deep_merge_no_mutation 2 [[("x", HValue.hnum 1)], [("y", HValue.hnum 2)]]
    0 1 [[("x", HValue.hnum 1)], [("y", HValue.hnum 2)],
      [("x", HValue.hnum 1), ("y", HValue.hnum 2)]] 2
    (by simp [hDeepMerge, hMergeItems, lookupKeyH, setKeyH])).2

end ConfigLoader
